import Mathlib

/-!
A shallow embedding of `src/loader.py`, a script that downloads the Debian
package index, fetches every listed package, unpacks each `.deb` (an `ar`
container holding a `data.tar*` payload), and collects decompressed man
pages into one shared corpus directory.

Modelling conventions: path and name strings are `List Char` (`Str`), file
contents are byte lists (`Bytes`), and the external codecs (gzip, tar) are
function parameters returning `Option`, since the script consumes them as
collaborators and their failures surface as exceptions.  Exceptions are
encoded with `Except`/`Option`/explicit flags; the encoding of each
function mirrors the control flow of the Python function it is named after.
-/

namespace DebLoader

abbrev Str := List Char

abbrev Bytes := List Nat

abbrev Corpus := List (Str × Bytes)

/-- Python `s.startswith(p)` on the character list model. -/
def startsWithL : Str → Str → Bool
  | [], _ => true
  | _ :: _, [] => false
  | a :: p, b :: l => if a = b then startsWithL p l else false

/-- Occurrence of the literal fragment `s` as a contiguous substring of the
second argument; used to model `re.search` of an alternation of literals. -/
def containsSub (s : Str) : Str → Bool
  | [] => startsWithL s []
  | b :: l => startsWithL s (b :: l) || containsSub s l

/-- Python `s.split(sep)` for a one-character separator `ch`. -/
def splitCh (ch : Char) : Str → List Str
  | [] => [[]]
  | c :: rest =>
    if c = ch then [] :: splitCh ch rest
    else
      match splitCh ch rest with
      | [] => [[c]]
      | g :: gs => (c :: g) :: gs

/-- The whitespace characters stripped by Python `str.strip()`. -/
def isWs (c : Char) : Bool :=
  c == ' ' || c == '\t' || c == '\n' || c == '\r' || c == '\x0B' || c == '\x0C'

/-- Python `s.strip()`. -/
def pyStrip (l : Str) : Str :=
  ((l.dropWhile isWs).reverse.dropWhile isWs).reverse

/-- Python `name.endswith(".gz")`. -/
def endsWithGz (l : Str) : Bool :=
  match l.reverse with
  | 'z' :: 'g' :: '.' :: _ => true
  | _ => false

/-- Python `name.endswith(".xz")`. -/
def endsWithXz (l : Str) : Bool :=
  match l.reverse with
  | 'z' :: 'x' :: '.' :: _ => true
  | _ => false

/-- Python `file[:-3]`, how `move_and_clean_man_pages` strips `.gz`. -/
def stripGz (l : Str) : Str :=
  (l.reverse.drop 3).reverse

/-- One file of a scratch tree: its basename and (compressed) content. -/
structure FSFile where
  name : Str
  content : Bytes
deriving DecidableEq

/-- One `(root, files)` pair as produced by `os.walk` over the scratch tree
(`dirs` is unused by the script). -/
structure WalkDir where
  root : Str
  files : List FSFile
deriving DecidableEq

/-- The literal alternatives of `man_page_regex` in `move_and_clean_man_pages`.
The Python raw string `r'usr\\share\\man\\'` is regex syntax for the literal
text `usr\share\man\` (escaped backslashes match single backslash characters;
the fourth alternative ends in a forward slash). -/
def man_page_fragments : List Str :=
  ["usr\\share\\man\\".data, "usr\\man\\".data, "usr\\X11R6\\man\\".data,
   "usr\\local\\man/".data, "opt\\man\\".data]

/-- `man_page_regex.search(root)`: some alternative occurs inside `root`. -/
def man_page_regex_search (root : Str) : Bool :=
  man_page_fragments.any (fun frag => containsSub frag root)

/-- `os.path.exists(dst_file)` in the corpus directory, modelled as an
association-list lookup by destination basename. -/
def lookupFile : Corpus → Str → Option Bytes
  | [], _ => none
  | (m, v) :: rest, n => if m = n then some v else lookupFile rest n

/-- The inner `for file in files` loop of `move_and_clean_man_pages`, for one
directory whose root matched the regex.  `gz` is the gzip decompressor
(`none` = `gzip` raises).  Returns the updated corpus and the files still
present in the directory (skipped or non-candidate files; a decompressed
source is `os.remove`d).  `.error` carries the corpus state at the point the
exception escapes the loop. -/
def processFiles (gz : Bytes → Option Bytes) :
    Corpus → List FSFile → Except Corpus (Corpus × List FSFile)
  | c, [] => .ok (c, [])
  | c, f :: rest =>
    if endsWithGz f.name then
      match lookupFile c (stripGz f.name) with
      | some _ =>
        match processFiles gz c rest with
        | .ok (c', kept) => .ok (c', f :: kept)
        | .error ce => .error ce
      | none =>
        match gz f.content with
        | none => .error c
        | some plain => processFiles gz ((stripGz f.name, plain) :: c) rest
    else
      match processFiles gz c rest with
      | .ok (c', kept) => .ok (c', f :: kept)
      | .error ce => .error ce

/-- The outer `for root, dirs, files in os.walk(extract_to)` loop of
`move_and_clean_man_pages`: directories whose full path fails the regex are
passed over untouched. -/
def processTree (gz : Bytes → Option Bytes) :
    Corpus → List WalkDir → Except Corpus Corpus
  | c, [] => .ok c
  | c, d :: ds =>
    if man_page_regex_search d.root then
      match processFiles gz c d.files with
      | .ok (c', _) => processTree gz c' ds
      | .error ce => .error ce
    else processTree gz c ds

/-- Result of one harvester run: final corpus, whether `shutil.rmtree`
removed the scratch tree, and whether an exception escaped the function. -/
structure HarvestResult where
  corpus : Corpus
  scratchRemoved : Bool
  raised : Bool
deriving DecidableEq

/-- `move_and_clean_man_pages(extract_to, man_dest_folder)`: run the walk
loop; only when it finishes without an exception does control reach the
final `shutil.rmtree(extract_to)` line. -/
def move_and_clean_man_pages (gz : Bytes → Option Bytes)
    (tree : List WalkDir) (c : Corpus) : HarvestResult :=
  match processTree gz c tree with
  | .ok c' => ⟨c', true, false⟩
  | .error ce => ⟨ce, false, true⟩

/-- The corpus component of a `processFiles`/`processTree` outcome (on error,
the corpus when the exception escaped). -/
def corpusOf : Except Corpus (Corpus × List FSFile) → Corpus
  | .ok (c, _) => c
  | .error c => c

/-- The tar-stream mode chosen by `extract_deb` from the member name:
`.gz` means `r:gz`, `.xz` means `r:xz`, anything else plain `r`. -/
inductive TarMode where
  | gzMode
  | xzMode
  | plainMode
deriving DecidableEq

def tar_mode_of (name : Str) : TarMode :=
  if endsWithGz name then .gzMode
  else if endsWithXz name then .xzMode
  else .plainMode

/-- One member of the outer `ar` container, as listed by
`archive.archived_files` (name bytes and content bytes). -/
structure ArMember where
  name : Str
  content : Bytes
deriving DecidableEq

/-- The scratch directory contents: relative path with content per entry. -/
abbrev Scratch := List (Str × Bytes)

/-- The member loop of `extract_deb`.  For each member whose name starts with
`data.tar`, the raw member is first written to `extract_to/<name>` and then
the tar stream is expanded into `extract_to`; `utar` is the tar codec
(entries of the stream, `none` = `tarfile` raises).  Members with other
names are ignored.  `scratch` accumulates the files present in
`extract_to`; `none` = an exception escapes `extract_deb`. -/
def extract_deb_loop (utar : TarMode → Bytes → Option Scratch) :
    List ArMember → Scratch → Option Scratch
  | [], scratch => some scratch
  | m :: rest, scratch =>
    if startsWithL "data.tar".data m.name then
      match utar (tar_mode_of m.name) m.content with
      | none => none
      | some entries =>
        extract_deb_loop utar rest (scratch ++ (m.name, m.content) :: entries)
    else extract_deb_loop utar rest scratch

/-- `extract_deb(data_path, extract_to)`: `extract_to` is created (empty),
then the member loop runs.  The result is the final contents of
`extract_to`; note there is no error case for a container with no
`data.tar*` member — the loop simply finds nothing to do. -/
def extract_deb (utar : TarMode → Bytes → Option Scratch)
    (members : List ArMember) : Option Scratch :=
  extract_deb_loop utar members []

/-- `download_file(url)`: `local_filename = url.split('/')[-1]`, the bytes
are streamed to `open(local_filename, 'wb')` — a path relative to the
process's current working directory `cwd` — and `local_filename` is
returned.  The result is the written file (absolute path with content)
paired with the returned relative filename. -/
def download_file (cwd url : Str) (bytes : Bytes) : (Str × Bytes) × Str :=
  let local_filename := (splitCh '/' url).getLastD []
  ((cwd ++ '/' :: local_filename, bytes), local_filename)

/-- The claim's reading of the destination of `download_file`: the substring
of the URL strictly after its last `/` character (the whole URL when it has
none). -/
def tail_after_last_slash : Str → Str
  | [] => []
  | c :: rest =>
    if '/' ∈ rest then tail_after_last_slash rest
    else if c = '/' then rest else c :: rest

/-- The index-parsing comprehension of `main`:
`[line.split(' ')[1].strip() for line in lines if line.startswith('Filename: ')]`. -/
def parse_deb_links (lines : List Str) : List Str :=
  (lines.filter (fun l => startsWithL "Filename: ".data l)).map
    (fun l => pyStrip ((splitCh ' ' l).getD 1 []))

/-- One future is submitted per parsed link, so the number of scheduled
package tasks equals the length of `deb_links`. -/
def scheduled_tasks (lines : List Str) : Nat :=
  (parse_deb_links lines).length

/-- The error raised by a step of `download_and_process_package`. -/
inductive TaskErr where
  | fetchErr
  | unpackErr
  | harvestErr
deriving DecidableEq

/-- The outcome of one task as seen by the `as_completed` loop of `main`. -/
inductive TaskOutcome where
  | success (link : Str)
  | failure (link : Str) (e : TaskErr)
deriving DecidableEq

/-- The executor phase of `main`: one `download_and_process_package` future
per parsed link, outcomes collected as each completes.  Run completion is
total — there is no abort path for an empty `deb_links` list. -/
def main_outcomes (lines : List Str) (runTask : Str → TaskOutcome) :
    List TaskOutcome :=
  (parse_deb_links lines).map runTask

/-- The collaborators one task interacts with: the fetch of this task's URL
(`none` = `requests` raises before any byte is written), the unpack of the
downloaded container (the scratch tree it would leave, as a walk list;
`none` = `arpy`/`tarfile` raises after `os.makedirs(extract_to)`), and the
gzip codec used by the harvester. -/
structure TaskEnv where
  fetch : Option Bytes
  unpack : Bytes → Option (List WalkDir)
  gz : Bytes → Option Bytes

/-- Observable state when one task finishes: the exception escaping it (if
any), whether the downloaded `.deb` temp file is still on disk, whether the
scratch directory still exists, and the corpus contents. -/
structure TaskResult where
  raisedErr : Option TaskErr
  tempFileLeft : Bool
  scratchLeft : Bool
  corpus : Corpus
deriving DecidableEq

/-- `download_and_process_package(link, dest_folder, man_dest_folder)`: the
straight-line pipeline download → `extract_deb` → `move_and_clean_man_pages`
→ `os.remove(deb_path)`.  There is no `try`/`except` in the function, so a
failing step makes the exception escape with every earlier step's on-disk
artifact still in place. -/
def download_and_process_package (env : TaskEnv) (c : Corpus) : TaskResult :=
  match env.fetch with
  | none => ⟨some .fetchErr, false, false, c⟩
  | some bytes =>
    match env.unpack bytes with
    | none => ⟨some .unpackErr, true, true, c⟩
    | some tree =>
      let h := move_and_clean_man_pages env.gz tree c
      if h.raised then ⟨some .harvestErr, true, true, h.corpus⟩
      else ⟨none, false, false, h.corpus⟩

/-- The `try: future.result() except Exception` body of `main`'s collection
loop: this is where (and the only place where) a task's exception is caught
and turned into a recorded failure. -/
def collect_future (link : Str) (r : TaskResult) : TaskOutcome :=
  match r.raisedErr with
  | none => .success link
  | some e => .failure link e

/-! ### Helper lemmas -/

theorem stripGz_append_gz {l : Str} (h : endsWithGz l = true) :
    stripGz l ++ ('.' :: 'g' :: 'z' :: []) = l := by
  unfold endsWithGz at h
  split at h
  case _ t heq =>
    have hl : l = t.reverse ++ ('.' :: 'g' :: 'z' :: []) := by
      have := congrArg List.reverse heq
      simpa using this
    rw [stripGz, heq]
    simpa using hl.symm
  case _ => exact absurd h (by simp)

theorem lookupFile_processFiles (gz : Bytes → Option Bytes) {c : Corpus} {n : Str}
    {v : Bytes} (files : List FSFile) (h : lookupFile c n = some v) :
    lookupFile (corpusOf (processFiles gz c files)) n = some v := by
  induction files generalizing c with
  | nil => simpa [processFiles, corpusOf] using h
  | cons f rest ih =>
    rw [processFiles]
    by_cases hg : endsWithGz f.name
    · simp only [hg, if_true]
      cases hl : lookupFile c (stripGz f.name) with
      | some w =>
        cases hrec : processFiles gz c rest with
        | ok p =>
          have := ih h
          rw [hrec] at this
          simpa [corpusOf] using this
        | error ce =>
          have := ih h
          rw [hrec] at this
          simpa [corpusOf] using this
      | none =>
        cases hz : gz f.content with
        | none => simpa [corpusOf] using h
        | some plain =>
          have hne : ¬ stripGz f.name = n := by
            intro he
            rw [he, h] at hl
            exact Option.noConfusion hl
          exact ih (by simpa [lookupFile, hne] using h)
    · simp only [hg, if_false]
      cases hrec : processFiles gz c rest with
      | ok p =>
        have := ih h
        rw [hrec] at this
        simpa [corpusOf] using this
      | error ce =>
        have := ih h
        rw [hrec] at this
        simpa [corpusOf] using this

theorem processFiles_total (gz : Bytes → Option Bytes)
    (hgz : ∀ b, (gz b).isSome = true) (c : Corpus) (files : List FSFile) :
    ∃ c' kept, processFiles gz c files = .ok (c', kept) := by
  induction files generalizing c with
  | nil => exact ⟨c, [], rfl⟩
  | cons f rest ih =>
    rw [processFiles]
    by_cases hg : endsWithGz f.name
    · simp only [hg, if_true]
      cases hl : lookupFile c (stripGz f.name) with
      | some w =>
        obtain ⟨c', kept, hok⟩ := ih c
        rw [hok]
        exact ⟨c', f :: kept, rfl⟩
      | none =>
        obtain ⟨p, hp⟩ := Option.isSome_iff_exists.mp (hgz f.content)
        rw [hp]
        exact ih _
    · simp only [hg, if_false]
      obtain ⟨c', kept, hok⟩ := ih c
      rw [hok]
      exact ⟨c', f :: kept, rfl⟩

theorem processTree_total (gz : Bytes → Option Bytes)
    (hgz : ∀ b, (gz b).isSome = true) (c : Corpus) (tree : List WalkDir) :
    ∃ c', processTree gz c tree = .ok c' := by
  induction tree generalizing c with
  | nil => exact ⟨c, rfl⟩
  | cons d ds ih =>
    rw [processTree]
    by_cases hm : man_page_regex_search d.root
    · simp only [hm, if_true]
      obtain ⟨c', kept, hok⟩ := processFiles_total gz hgz c d.files
      rw [hok]
      exact ih c'
    · simp only [hm, if_false]
      exact ih c

/-! ### C1: the placement rule of the harvester -/

/-- The skip half of the placement rule, at one candidate: when the
destination name is already in the corpus the candidate contributes no
corpus change and no exception (the loop continues exactly as without it,
with the source file kept), and the existing entry's content survives the
rest of the loop unchanged. -/
def C1Skip (gz : Bytes → Option Bytes) (c : Corpus) (f : FSFile)
    (rest : List FSFile) : Prop :=
  ∀ v, lookupFile c (stripGz f.name) = some v →
    processFiles gz c (f :: rest) =
      (processFiles gz c rest).map (fun p => (p.1, f :: p.2)) ∧
    lookupFile (corpusOf (processFiles gz c (f :: rest))) (stripGz f.name) = some v

/-- The write half of the placement rule, at one candidate: when the
destination name is absent and decompression yields `p`, the loop continues
from the corpus extended with the decompressed entry, and the candidate is
not among the kept source files (it was `os.remove`d). -/
def C1Write (gz : Bytes → Option Bytes) (c : Corpus) (f : FSFile)
    (rest : List FSFile) : Prop :=
  lookupFile c (stripGz f.name) = none → ∀ p, gz f.content = some p →
    processFiles gz c (f :: rest) =
      processFiles gz ((stripGz f.name, p) :: c) rest ∧
    lookupFile ((stripGz f.name, p) :: c) (stripGz f.name) = some p

/-- C1 (confirmed).  For every candidate (a file ending in `.gz` inside a
matched directory), the destination filename is the candidate filename with
the trailing `.gz` removed (`stripGz` appends back to the original); if the
destination already exists the candidate is skipped with no overwrite and no
error and the existing content is unchanged afterwards; otherwise the
decompressed bytes are placed under the destination name and the source is
deleted. -/
theorem c1_placement_rule (gz : Bytes → Option Bytes) (c : Corpus) (f : FSFile)
    (rest : List FSFile) (h : endsWithGz f.name = true) :
    stripGz f.name ++ ('.' :: 'g' :: 'z' :: []) = f.name ∧
    C1Skip gz c f rest ∧ C1Write gz c f rest := by
  refine ⟨stripGz_append_gz h, ?_, ?_⟩
  · intro v hv
    constructor
    · rw [processFiles]
      simp only [h, if_true, hv]
      cases processFiles gz c rest with
      | ok p => rfl
      | error ce => rfl
    · exact lookupFile_processFiles gz (f :: rest) hv
  · intro hn p hp
    constructor
    · rw [processFiles]
      simp [h, hn, hp]
    · simp [lookupFile]

/-- Witness for C1 at a concrete corpus and candidate. -/
theorem c1_witness :
    endsWithGz ("ls.1.gz".data) = true ∧
    (stripGz "ls.1.gz".data ++ ('.' :: 'g' :: 'z' :: []) = "ls.1.gz".data ∧
      C1Skip (fun b => some b) [("ls.1".data, [1])] ⟨"ls.1.gz".data, [2]⟩ [] ∧
      C1Write (fun b => some b) [("ls.1".data, [1])] ⟨"ls.1.gz".data, [2]⟩ []) :=
  ⟨by decide,
    c1_placement_rule (fun b => some b) [("ls.1".data, [1])]
      ⟨"ls.1.gz".data, [2]⟩ [] (by decide)⟩

/-! ### C2: scratch-tree cleanup -/

/-- C2 counterexample.  A harvest in which decompressing the single candidate
fails (the gzip codec raises): the exception escapes
`move_and_clean_man_pages` before the `shutil.rmtree` line, so the scratch
tree is NOT removed, contradicting removal on every exit path.  (The
directory root here literally contains backslashes, since only such paths
match the compiled pattern.) -/
theorem c2_counterexample :
    move_and_clean_man_pages (fun _ => none)
        [⟨"man_data/p/usr\\share\\man\\man1".data, [⟨"bad.1.gz".data, [0]⟩]⟩] [] =
      ⟨[], false, true⟩ := by
  decide

/-- C2 (corrected).  The scratch tree is removed exactly on runs where no
candidate fails: whenever the gzip codec succeeds on every input the walk
loop finishes, `shutil.rmtree` runs, and no exception escapes. -/
theorem c2_cleanup_amended (gz : Bytes → Option Bytes) (tree : List WalkDir)
    (c : Corpus) (hgz : ∀ b, (gz b).isSome = true) :
    (move_and_clean_man_pages gz tree c).scratchRemoved = true ∧
    (move_and_clean_man_pages gz tree c).raised = false := by
  obtain ⟨c', h⟩ := processTree_total gz hgz c tree
  rw [move_and_clean_man_pages, h]
  exact ⟨rfl, rfl⟩

/-- Witness for the amended C2 on a concrete tree with a total codec. -/
theorem c2_witness :
    (move_and_clean_man_pages (fun b => some b)
        [⟨"usr\\share\\man\\man1".data, [⟨"ls.1.gz".data, [7]⟩]⟩] []).scratchRemoved = true ∧
    (move_and_clean_man_pages (fun b => some b)
        [⟨"usr\\share\\man\\man1".data, [⟨"ls.1.gz".data, [7]⟩]⟩] []).raised = false :=
  c2_cleanup_amended (fun b => some b)
    [⟨"usr\\share\\man\\man1".data, [⟨"ls.1.gz".data, [7]⟩]⟩] [] (fun _ => rfl)

/-! ### C3: failure isolation of one package task -/

/-- C3 counterexample.  A task whose fetch succeeds and whose unpack step
raises: the exception escapes `download_and_process_package` (there is no
`try`/`except` in it), and neither the downloaded `.deb` temp file nor the
freshly created scratch directory is cleaned up. -/
theorem c3_counterexample :
    download_and_process_package ⟨some [1], fun _ => none, fun b => some b⟩ [] =
      ⟨some .unpackErr, true, true, []⟩ := by
  decide

/-- C3 (corrected).  A fetch-step failure (raising before any byte is
written) leaves no temp file and no scratch directory; a failure of a later
step leaves the temp file (and, for unpack failures, the scratch directory)
behind; in every failing case the exception escapes the task and is turned
into a recorded failure only by the `try`/`except` of `main`'s collection
loop, which also reports successes. -/
theorem c3_task_amended (env : TaskEnv) (c : Corpus) (link : Str) :
    (env.fetch = none →
      download_and_process_package env c = ⟨some .fetchErr, false, false, c⟩) ∧
    (∀ b, env.fetch = some b → env.unpack b = none →
      download_and_process_package env c = ⟨some .unpackErr, true, true, c⟩) ∧
    (∀ e, (download_and_process_package env c).raisedErr = some e →
      collect_future link (download_and_process_package env c) = .failure link e) ∧
    ((download_and_process_package env c).raisedErr = none →
      collect_future link (download_and_process_package env c) = .success link) := by
  refine ⟨?_, ?_, ?_, ?_⟩
  · intro hf
    rw [download_and_process_package, hf]
  · intro b hf hu
    rw [download_and_process_package, hf]
    simp only [hu]
  · intro e he
    rw [collect_future, he]
  · intro he
    rw [collect_future, he]

/-- Witness for the amended C3: a fetch failure leaves nothing behind. -/
theorem c3_witness :
    download_and_process_package ⟨none, fun _ => some [], fun b => some b⟩ [] =
      ⟨some .fetchErr, false, false, []⟩ :=
  (c3_task_amended ⟨none, fun _ => some [], fun b => some b⟩ [] ("p".data)).1 rfl

/-! ### C4: the discovery rule's path pattern -/

/-- C4 (code bug).  The compiled pattern's alternatives contain literal
backslash separators, so a real POSIX manual path — forward slashes — never
matches: a gzip-compressed page sitting under `usr/share/man/man1/` is not
discovered, the harvest moves nothing into the corpus, and the scratch tree
is removed having contributed no pages.  The spec's discovery rule (match
the conventional manual locations) is the evident intent. -/
theorem c4_regex_never_matches_posix :
    man_page_regex_search "man_data/pkg/usr/share/man/man1".data = false ∧
    move_and_clean_man_pages (fun b => some b)
        [⟨"man_data/pkg/usr/share/man/man1".data, [⟨"ls.1.gz".data, [7]⟩]⟩] [] =
      ⟨[], true, false⟩ := by
  decide

/-! ### C6 and C7: unpacking the container archive -/

theorem extract_deb_loop_skip (utar : TarMode → Bytes → Option Scratch)
    (ms l : List ArMember) (s : Scratch)
    (h : ∀ m ∈ ms, startsWithL "data.tar".data m.name = false) :
    extract_deb_loop utar (ms ++ l) s = extract_deb_loop utar l s := by
  induction ms with
  | nil => rfl
  | cons m ms ih =>
    have hm := h m (by simp)
    simp only [List.cons_append, extract_deb_loop, hm]
    exact ih (fun x hx => h x (by simp [hx]))

/-- C6 counterexample.  A container archive with no `data.tar*` member:
`extract_deb` returns successfully (`some`, and with an empty scratch
directory), instead of failing with an archive-format error — no error path
for this case exists in the code. -/
theorem c6_counterexample :
    extract_deb (fun _ _ => some [])
      [⟨"debian-binary".data, [2]⟩, ⟨"control.tar.gz".data, [1]⟩] = some [] := by
  decide

/-- C6 (corrected).  When no member name begins with `data.tar`, the member
loop finds nothing to do and `extract_deb` returns successfully, leaving the
scratch directory created but empty: no exception of any kind is raised. -/
theorem c6_no_payload_amended (utar : TarMode → Bytes → Option Scratch)
    (members : List ArMember)
    (h : ∀ m ∈ members, startsWithL "data.tar".data m.name = false) :
    extract_deb utar members = some [] := by
  rw [extract_deb, ← List.append_nil members]
  exact extract_deb_loop_skip utar members [] [] h

/-- Witness for the amended C6 on a concrete payload-free archive. -/
theorem c6_witness :
    extract_deb (fun _ _ => some []) [⟨"control.tar.xz".data, [1]⟩] = some [] :=
  c6_no_payload_amended (fun _ _ => some []) [⟨"control.tar.xz".data, [1]⟩]
    (by decide)

/-- C7 counterexample.  Unpacking a valid container whose payload tar holds
one entry: the scratch directory afterwards also holds the raw payload
member itself (`extract_deb` writes `data.tar*` into `extract_to` and never
deletes it), a file that is not among the tar's entries — so the scratch
contents do not equal the payload's tar contents exactly. -/
theorem c7_counterexample :
    extract_deb (fun _ _ => some [("usr/share/man/man1/a.1.gz".data, [9])])
        [⟨"data.tar".data, [5]⟩] =
      some [("data.tar".data, [5]), ("usr/share/man/man1/a.1.gz".data, [9])] ∧
    ¬ ("data.tar".data, ([5] : Bytes)) ∈
        [("usr/share/man/man1/a.1.gz".data, ([9] : Bytes))] := by
  decide

/-- C7 (corrected).  For a container with exactly one `data.tar*` member
whose tar stream decodes, the scratch directory contains that payload's
entries with their relative paths preserved, plus one extra file: the
undeleted raw payload member itself. -/
theorem c7_unpack_amended (utar : TarMode → Bytes → Option Scratch)
    (pre post : List ArMember) (m : ArMember) (entries : Scratch)
    (hm : startsWithL "data.tar".data m.name = true)
    (hpre : ∀ x ∈ pre, startsWithL "data.tar".data x.name = false)
    (hpost : ∀ x ∈ post, startsWithL "data.tar".data x.name = false)
    (hu : utar (tar_mode_of m.name) m.content = some entries) :
    extract_deb utar (pre ++ m :: post) = some ((m.name, m.content) :: entries) := by
  rw [extract_deb, extract_deb_loop_skip utar pre (m :: post) [] hpre,
    extract_deb_loop, if_pos hm, hu, ← List.append_nil post]
  exact extract_deb_loop_skip utar post [] _ hpost

/-- Witness for the amended C7 on a concrete three-member archive. -/
theorem c7_witness :
    extract_deb (fun _ _ => some [("e".data, [1])])
        ([⟨"debian-binary".data, [0]⟩] ++ ⟨"data.tar.xz".data, [5]⟩ :: [⟨"z".data, [2]⟩]) =
      some (("data.tar.xz".data, ([5] : Bytes)) :: [("e".data, [1])]) :=
  c7_unpack_amended (fun _ _ => some [("e".data, [1])])
    [⟨"debian-binary".data, [0]⟩] [⟨"z".data, [2]⟩] ⟨"data.tar.xz".data, [5]⟩
    [("e".data, [1])] (by decide) (by decide) (by decide) rfl

/-! ### Lemmas about `splitCh` -/

theorem splitCh_ne_nil (ch : Char) (l : Str) : splitCh ch l ≠ [] := by
  cases l with
  | nil => simp [splitCh]
  | cons c rest =>
    rw [splitCh]
    by_cases hc : c = ch
    · simp [hc]
    · simp only [if_neg hc]
      cases splitCh ch rest <;> simp

theorem splitCh_of_not_mem {ch : Char} {l : Str} (h : ch ∉ l) :
    splitCh ch l = [l] := by
  induction l with
  | nil => rfl
  | cons c rest ih =>
    have hc : ¬ c = ch := fun he => h (by simp [he])
    rw [splitCh, if_neg hc, ih (fun hm => h (by simp [hm]))]

theorem splitCh_of_mem {ch : Char} {l : Str} (h : ch ∈ l) :
    ∃ g gs, splitCh ch l = g :: gs ∧ gs ≠ [] := by
  induction l with
  | nil => simp at h
  | cons c rest ih =>
    by_cases hc : c = ch
    · subst hc
      exact ⟨[], splitCh c rest, by rw [splitCh, if_pos rfl], splitCh_ne_nil c rest⟩
    · have hr : ch ∈ rest := by
        rcases List.mem_cons.mp h with he | hr
        · exact absurd he.symm hc
        · exact hr
      obtain ⟨g, gs, hS, hgs⟩ := ih hr
      exact ⟨c :: g, gs, by rw [splitCh, if_neg hc, hS], hgs⟩

theorem getLastD_tail_irrel {α : Type} (x : α) (l : List α) (d d' : α) :
    (x :: l).getLastD d = (x :: l).getLastD d' := by
  rw [List.getLastD_cons, List.getLastD_cons]

theorem tail_of_not_mem {l : Str} (h : '/' ∉ l) : tail_after_last_slash l = l := by
  induction l with
  | nil => rfl
  | cons c rest ih =>
    have hc : ¬ c = '/' := fun he => h (by simp [he])
    have hr : '/' ∉ rest := fun hm => h (by simp [hm])
    rw [tail_after_last_slash, if_neg hr, if_neg hc]

theorem getLastD_splitCh (l : Str) :
    (splitCh '/' l).getLastD [] = tail_after_last_slash l := by
  induction l with
  | nil => rfl
  | cons c rest ih =>
    by_cases hc : c = '/'
    · subst hc
      rw [splitCh, if_pos rfl, List.getLastD_cons, tail_after_last_slash]
      by_cases hm : '/' ∈ rest
      · rw [if_pos hm]
        exact ih
      · rw [if_neg hm, if_pos rfl, splitCh_of_not_mem hm]
        rfl
    · rw [splitCh, if_neg hc]
      cases hS : splitCh '/' rest with
      | nil => exact absurd hS (splitCh_ne_nil '/' rest)
      | cons g gs =>
        cases gs with
        | nil =>
          have hm : '/' ∉ rest := by
            intro hmem
            obtain ⟨g', gs', hS', hgs'⟩ := splitCh_of_mem hmem
            rw [hS] at hS'
            exact hgs' (List.cons.inj hS').2.symm
          have hg : g = rest := by
            have := splitCh_of_not_mem hm
            rw [hS] at this
            exact (List.cons.inj this).1
          rw [tail_after_last_slash, if_neg hm, if_neg hc, hg]
          rfl
        | cons g2 gs2 =>
          have hm : '/' ∈ rest := by
            by_contra hmem
            have := splitCh_of_not_mem hmem
            rw [hS] at this
            exact List.noConfusion (List.cons.inj this).2
          rw [tail_after_last_slash, if_pos hm, ← ih, hS]
          simp [List.getLastD_cons]

theorem splitCh_append_cons (ch : Char) (pre rest : Str)
    (h : ∀ a ∈ pre, ¬ a = ch) :
    splitCh ch (pre ++ ch :: rest) = pre :: splitCh ch rest := by
  induction pre with
  | nil => rw [List.nil_append, splitCh, if_pos rfl]
  | cons a p ih =>
    have ha : ¬ a = ch := h a (by simp)
    rw [List.cons_append, splitCh, if_neg ha, ih (fun x hx => h x (by simp [hx]))]

theorem splitCh_getD_zero (ch : Char) (l : Str) :
    (splitCh ch l).getD 0 [] = l.takeWhile (fun c => !(c == ch)) := by
  induction l with
  | nil => rfl
  | cons c rest ih =>
    by_cases hc : c = ch
    · subst hc
      rw [splitCh, if_pos rfl]
      simp [List.takeWhile_cons]
    · rw [splitCh, if_neg hc]
      cases hS : splitCh ch rest with
      | nil => exact absurd hS (splitCh_ne_nil ch rest)
      | cons g gs =>
        have hcb : (!(c == ch)) = true := by simp [hc]
        rw [List.takeWhile_cons, hcb]
        simp only [List.getD, List.get?]
        rw [← ih, hS]
        rfl

theorem startsWithL_decompose {p l : Str} (h : startsWithL p l = true) :
    l = p ++ l.drop p.length := by
  induction p generalizing l with
  | nil => simp
  | cons a p ih =>
    cases l with
    | nil => exact absurd h (by rw [startsWithL]; simp)
    | cons b l' =>
      rw [startsWithL] at h
      by_cases hab : a = b
      · rw [if_pos hab] at h
        subst hab
        simpa using ih h
      · rw [if_neg hab] at h
        exact absurd h (by simp)

/-! ### C8: parsing the package index -/

theorem second_field_eq {l : Str} (h : startsWithL "Filename: ".data l = true) :
    (splitCh ' ' l).getD 1 [] = (l.drop 10).takeWhile (fun c => !(c == ' ')) := by
  have hd : l = "Filename:".data ++ ' ' :: l.drop 10 := startsWithL_decompose h
  conv_lhs => rw [hd]
  rw [splitCh_append_cons ' ' "Filename:".data _ (by decide)]
  simp only [List.getD_cons_succ]
  exact splitCh_getD_zero ' ' (l.drop 10)

theorem parse_deb_links_cons (l : Str) (ls : List Str) :
    parse_deb_links (l :: ls) =
      if startsWithL "Filename: ".data l = true then
        pyStrip ((splitCh ' ' l).getD 1 []) :: parse_deb_links ls
      else parse_deb_links ls := by
  rw [parse_deb_links, List.filter_cons]
  split
  · rfl
  · rfl

/-- C8 counterexample.  An index line whose archive path contains a space:
the code takes `line.split(' ')[1]` — only the text up to the next space —
so the parsed entry is `pool/a`, not everything after the prefix
(`pool/a b.deb`). -/
theorem c8_counterexample :
    parse_deb_links ["Filename: pool/a b.deb\n".data] = ["pool/a".data] ∧
    "pool/a".data ≠ "pool/a b.deb".data := by
  decide

/-- C8 (corrected).  The parsed package list has one entry per line starting
with `Filename: `, in order of appearance; each entry is the text after the
prefix up to the next space character (the second space-separated field of
the line), stripped of surrounding whitespace — not everything after the
prefix when the path itself contains a space. -/
theorem c8_parse_amended (lines : List Str) :
    parse_deb_links lines =
      lines.filterMap (fun l =>
        if startsWithL "Filename: ".data l = true then
          some (pyStrip ((l.drop 10).takeWhile (fun c => !(c == ' '))))
        else none) := by
  induction lines with
  | nil => rfl
  | cons l ls ih =>
    rw [parse_deb_links_cons, List.filterMap_cons]
    by_cases hs : startsWithL "Filename: ".data l = true
    · rw [if_pos hs, if_pos hs, second_field_eq hs, ih]
    · rw [if_neg hs, if_neg hs, ih]

/-! ### C9: an index with no matching line -/

/-- C9 counterexample.  An index whose only line is not a `Filename: `
record: the package list comes out empty, zero tasks are scheduled, and the
executor loop completes normally — no index-format error exists in the code
to abort the run. -/
theorem c9_counterexample :
    parse_deb_links ["Package: foo\n".data] = [] ∧
    scheduled_tasks ["Package: foo\n".data] = 0 ∧
    main_outcomes ["Package: foo\n".data] (fun l => .success l) = [] := by
  decide

/-- C9 (corrected).  When no line starts with the record field, the parsed
package list is empty and the run simply proceeds: zero tasks are scheduled
and the collection loop finishes with no outcomes; no error is raised. -/
theorem c9_empty_amended (lines : List Str) (rt : Str → TaskOutcome)
    (h : ∀ l ∈ lines, startsWithL "Filename: ".data l = false) :
    parse_deb_links lines = [] ∧ scheduled_tasks lines = 0 ∧
    main_outcomes lines rt = [] := by
  have hp : parse_deb_links lines = [] := by
    induction lines with
    | nil => rfl
    | cons l ls ih =>
      rw [parse_deb_links_cons, if_neg (by simp [h l (by simp)])]
      exact ih (fun x hx => h x (by simp [hx]))
  exact ⟨hp, by rw [scheduled_tasks, hp]; rfl, by rw [main_outcomes, hp]; rfl⟩

/-- Witness for the amended C9 on a concrete metadata-only index. -/
theorem c9_witness :
    parse_deb_links ["Package: a\n".data, "Installed-Size: 10\n".data] = [] ∧
    scheduled_tasks ["Package: a\n".data, "Installed-Size: 10\n".data] = 0 ∧
    main_outcomes ["Package: a\n".data, "Installed-Size: 10\n".data]
      (fun l => .failure l .fetchErr) = [] :=
  c9_empty_amended ["Package: a\n".data, "Installed-Size: 10\n".data]
    (fun l => .failure l .fetchErr) (by decide)

/-! ### C10: the download target path -/

/-- C10 (confirmed).  `download_file` writes the fetched bytes to the path
given by the substring of the URL after its last `/`, resolved against the
current working directory, and returns that relative filename; hence two
URLs sharing the final path segment target the same local file. -/
theorem c10_download_target (cwd url : Str) (bytes : Bytes) :
    download_file cwd url bytes =
      ((cwd ++ '/' :: tail_after_last_slash url, bytes), tail_after_last_slash url) ∧
    (∀ url2, tail_after_last_slash url2 = tail_after_last_slash url →
      (download_file cwd url2 bytes).1.1 = (download_file cwd url bytes).1.1) := by
  constructor
  · rw [download_file, getLastD_splitCh]
  · intro url2 h2
    rw [download_file, download_file, getLastD_splitCh, getLastD_splitCh, h2]

/-- Witness for C10: two mirror URLs with the same basename collide on the
same local path. -/
theorem c10_witness :
    (download_file "/w".data "http://m/p/x.deb".data [1]).1.1 =
      (download_file "/w".data "http://q/x.deb".data [1]).1.1 :=
  (c10_download_target "/w".data "http://q/x.deb".data [1]).2
    "http://m/p/x.deb".data (by decide)

end DebLoader
